import Mathlib

/-!
Verification of the texide tokenization/expansion core.

This file shallowly embeds the data model and operations of the texide
repository (a TeX-language front end written in Rust) and proves, or
refutes, the specified properties of:

* the category-code encodings (`src/tex/token/catcode.rs`),
* the token value types (`src/tex/token/token.rs`),
* `ScopedMap` (`src/scopedmap.rs`),
* the conditional primitives (`src/tex/primitive/library/conditional.rs`),
* the driver loop and the CLI entry point (`src/tex/driver.rs`, `src/main.rs`),
* the lexer and raw lexer (`src/tex/token/lexer.rs`).

Rust `HashMap`s keyed by `K` are embedded as functions `K → List V` (the
empty list standing for an absent key), `HashSet<K>` as `K → Bool`,
`String` as `List Char`, `u8`/`usize` as `Nat`, and `isize` as `Int`.
Loops are embedded as fuel-indexed structural recursions; a loop's fuel is
irrelevant once it exceeds the number of unread characters (proved by the
`*_stable` lemmas below), and the un-suffixed wrappers instantiate the fuel
with that bound, so they compute the loop's exact result.
-/

/-! ### Category codes (`src/tex/token/catcode.rs`) -/

/-- The 11 category codes the lexer may emit (`enum CatCode`). -/
inductive CatCode where
  | BeginGroup
  | EndGroup
  | MathShift
  | AlignmentTab
  | Parameter
  | Superscript
  | Subscript
  | Space
  | Letter
  | Other
  | Active
deriving DecidableEq, Repr

/-- `CatCode::int` (returns `u8`, embedded as `Nat`). -/
def CatCode.int : CatCode → Nat
  | .BeginGroup => 1
  | .EndGroup => 2
  | .MathShift => 3
  | .AlignmentTab => 4
  | .Parameter => 6
  | .Superscript => 7
  | .Subscript => 8
  | .Space => 10
  | .Letter => 11
  | .Other => 12
  | .Active => 13

/-- `CatCode::from_int`. -/
def CatCode.from_int : Nat → Option CatCode
  | 1 => some .BeginGroup
  | 2 => some .EndGroup
  | 3 => some .MathShift
  | 4 => some .AlignmentTab
  | 6 => some .Parameter
  | 7 => some .Superscript
  | 8 => some .Subscript
  | 10 => some .Space
  | 11 => some .Letter
  | 12 => some .Other
  | 13 => some .Active
  | _ => none

/-- All 16 category codes (`enum RawCatCode`). -/
inductive RawCatCode where
  | Regular (c : CatCode)
  | Escape
  | EndOfLine
  | Ignored
  | Comment
  | Invalid
deriving DecidableEq, Repr

/-- `RawCatCode::int`. -/
def RawCatCode.int : RawCatCode → Nat
  | .Regular c => c.int
  | .Escape => 0
  | .EndOfLine => 5
  | .Ignored => 9
  | .Comment => 14
  | .Invalid => 15

/-- `RawCatCode::from_int`. -/
def RawCatCode.from_int (i : Nat) : Option RawCatCode :=
  match i with
  | 0 => some .Escape
  | 5 => some .EndOfLine
  | 9 => some .Ignored
  | 14 => some .Comment
  | 15 => some .Invalid
  | i => (CatCode.from_int i).map (fun c => .Regular c)

/-- `catcode::or_default`: unmapped characters default to `Regular(Other)`. -/
def RawCatCode.or_default : Option RawCatCode → RawCatCode
  | none => .Regular .Other
  | some c => c

/-! ### Tokens (`src/tex/token/token.rs`) -/

/-- `token::Line` (`Rc<String>` fields embedded by value; `isize` as `Int`). -/
structure Line where
  content : List Char
  line_number : Int
  file : List Char
deriving DecidableEq, Repr

/-- `token::Source`. -/
structure Source where
  line : Line
  position : Nat
deriving DecidableEq, Repr

/-- `token::Value`. -/
inductive Value where
  | Character (c : Char) (cat : CatCode)
  | ControlSequence (esc : Char) (name : List Char)
deriving DecidableEq, Repr

/-- `token::Token`. -/
structure Token where
  value : Value
  source : Source
deriving DecidableEq, Repr

/-- Model of the `PartialEq` derived for `Line`: field-wise structural
equality (`Rc<String>` compares the pointed-to strings). -/
def line_eq (a b : Line) : Bool :=
  decide (a.content = b.content) && decide (a.line_number = b.line_number)
    && decide (a.file = b.file)

/-- Model of the `PartialEq` derived for `Source`: field-wise. -/
def source_eq (a b : Source) : Bool :=
  line_eq a.line b.line && decide (a.position = b.position)

/-- Model of the `PartialEq` derived for `Value`: same constructor,
field-wise equal. -/
def value_eq : Value → Value → Bool
  | .Character c1 k1, .Character c2 k2 => decide (c1 = c2) && decide (k1 = k2)
  | .ControlSequence e1 n1, .ControlSequence e2 n2 =>
      decide (e1 = e2) && decide (n1 = n2)
  | _, _ => false

/-- Model of the `PartialEq` derived for `Token`: it compares BOTH fields,
`value` and `source` (`#[derive(Debug, Eq, PartialEq)] struct Token`). -/
def token_eq (a b : Token) : Bool :=
  value_eq a.value b.value && source_eq a.source b.source

/-! ### ScopedMap (`src/scopedmap.rs`)

`key_to_value_stack : HashMap<Rc<K>, Vec<V>>` is embedded as a function
`K → List V`: the empty list stands for "key absent", and the HEAD of the
list is the top of the Rust `Vec` (its `last()`).  `changed_keys_stack :
Vec<HashSet<Rc<K>>>` is embedded as `List (K → Bool)` with the head of the
list being the top of the Rust stack (its `last()`).  `Rc` sharing is an
optimization with no observable effect and is dropped. -/

/-- `ScopedMap<K, V>`. -/
structure ScopedMap (K V : Type) where
  key_to_value_stack : K → List V
  changed_keys_stack : List (K → Bool)

variable {K V : Type} [DecidableEq K]

/-- `ScopedMap::new`. -/
def ScopedMap.new : ScopedMap K V :=
  { key_to_value_stack := fun _ => [], changed_keys_stack := [] }

/-- Overwriting the value at the top of a value stack
(`*stack.last_mut().unwrap() = val`).  The Rust code reaches this only
when the stack is non-empty (it panics otherwise, which the map's
invariants make unreachable); on the empty list we return the empty list. -/
def overwriteLast (l : List V) (v : V) : List V :=
  match l with
  | [] => []
  | _ :: t => v :: t

/-- `ScopedMap::insert`. -/
def ScopedMap.insert (m : ScopedMap K V) (k : K) (v : V) : ScopedMap K V :=
  match m.changed_keys_stack with
  | [] =>
    -- global scope: the key is new iff it has no value stack
    match m.key_to_value_stack k with
    | [] =>
      { m with key_to_value_stack :=
          fun x => if x = k then [v] else m.key_to_value_stack x }
    | _ :: t =>
      { m with key_to_value_stack :=
          fun x => if x = k then v :: t else m.key_to_value_stack x }
  | cs :: rest =>
    if cs k then
      -- already changed in this scope: overwrite in place
      { m with key_to_value_stack :=
          fun x => if x = k then overwriteLast (m.key_to_value_stack x) v
                   else m.key_to_value_stack x }
    else
      -- new in this scope: record in the change set, push onto the stack
      { key_to_value_stack :=
          fun x => if x = k then v :: m.key_to_value_stack x
                   else m.key_to_value_stack x,
        changed_keys_stack := (fun x => if x = k then true else cs x) :: rest }

/-- `ScopedMap::insert_global`: clear the key from every open scope's
change set, then replace the whole value stack with `[v]`. -/
def ScopedMap.insert_global (m : ScopedMap K V) (k : K) (v : V) : ScopedMap K V :=
  { key_to_value_stack := fun x => if x = k then [v] else m.key_to_value_stack x,
    changed_keys_stack :=
      m.changed_keys_stack.map (fun cs x => if x = k then false else cs x) }

/-- `ScopedMap::get`: `value_stack.last()`. -/
def ScopedMap.get (m : ScopedMap K V) (k : K) : Option V :=
  (m.key_to_value_stack k).head?

/-- `ScopedMap::begin_scope`: push an empty change set. -/
def ScopedMap.begin_scope (m : ScopedMap K V) : ScopedMap K V :=
  { m with changed_keys_stack := (fun _ => false) :: m.changed_keys_stack }

/-- `ScopedMap::end_scope`: pop the top change set; for each key in it, pop
its value stack if it has more than one value, else remove the entry.  The
Rust `for` loop visits the set's keys in unspecified order; the per-key
updates commute, so the result is this pointwise function.  The returned
`Bool` is `false` iff there was no scope to end. -/
def ScopedMap.end_scope (m : ScopedMap K V) : Bool × ScopedMap K V :=
  match m.changed_keys_stack with
  | [] => (false, m)
  | cs :: rest =>
    (true,
     { key_to_value_stack := fun k =>
         if cs k then
           if (m.key_to_value_stack k).length ≤ 1 then []
           else (m.key_to_value_stack k).tail
         else m.key_to_value_stack k,
       changed_keys_stack := rest })

/-- The state after `end_scope`, discarding the success flag. -/
def ScopedMap.endS (m : ScopedMap K V) : ScopedMap K V :=
  m.end_scope.2

/-- One call against a `ScopedMap`: the operations of claim C1. -/
inductive MapOp (K V : Type) where
  | insert (k : K) (v : V)
  | insert_global (k : K) (v : V)
  | begin_scope
  | end_scope

/-- Apply one operation (the caller of `end_scope` drops the flag). -/
def applyOp (m : ScopedMap K V) : MapOp K V → ScopedMap K V
  | .insert k v => m.insert k v
  | .insert_global k v => m.insert_global k v
  | .begin_scope => m.begin_scope
  | .end_scope => m.endS

/-- Run a sequence of operations left to right. -/
def runOps (m : ScopedMap K V) (ops : List (MapOp K V)) : ScopedMap K V :=
  List.foldl applyOp m ops

/-- Operation sequences whose `begin_scope`/`end_scope` calls are properly
matched (the body of a matched pair is exactly such a sequence). -/
inductive BalancedOps : List (MapOp K V) → Prop where
  | nil : BalancedOps []
  | ins (k : K) (v : V) {B : List (MapOp K V)} :
      BalancedOps B → BalancedOps (.insert k v :: B)
  | insg (k : K) (v : V) {B : List (MapOp K V)} :
      BalancedOps B → BalancedOps (.insert_global k v :: B)
  | nest {B1 B2 : List (MapOp K V)} :
      BalancedOps B1 → BalancedOps B2 →
      BalancedOps (.begin_scope :: B1 ++ .end_scope :: B2)

/-- The value of the LAST `insert_global` for a key in an operation
sequence, if any. -/
def lastGlobal : List (MapOp K V) → K → Option V
  | [], _ => none
  | op :: rest, k =>
    match lastGlobal rest k with
    | some v => some v
    | none =>
      match op with
      | .insert_global k2 v => if k = k2 then some v else none
      | _ => none

/-- Remove the keys touched by `insert_global` from a change set. -/
def clearG (g : K → Option V) (cs : K → Bool) : K → Bool :=
  fun x => cs x && (g x).isNone

/-- The `Extend` impl consumed by `catcode::set_tex_defaults` (its code is
not under `src/`; modelled from the standard library's `Extend` contract:
insert every pair, in order). -/
def ScopedMap.extend (m : ScopedMap K V) (pairs : List (K × V)) : ScopedMap K V :=
  pairs.foldl (fun acc kv => acc.insert kv.1 kv.2) m

/-! ### Lexer (`src/tex/token/lexer.rs`) -/

/-- The category-code map consulted by the lexer
(`&ScopedMap<char, RawCatCode>`). -/
abbrev CatMap := ScopedMap Char RawCatCode

/-- `catcode::tex_defaults` / `set_tex_defaults`: the standard TeX
category assignments. -/
def tex_defaults : CatMap :=
  ScopedMap.extend ScopedMap.new
    ([('\\', .Escape),
      ('{', .Regular .BeginGroup),
      ('}', .Regular .EndGroup),
      ('$', .Regular .MathShift),
      ('&', .Regular .AlignmentTab),
      ('\n', .EndOfLine),
      ('#', .Regular .Parameter),
      ('^', .Regular .Superscript),
      ('_', .Regular .Subscript),
      ('~', .Regular .Active),
      ('%', .Comment),
      (' ', .Regular .Space)]
      ++ (['A', 'B', 'C', 'D', 'E', 'F', 'G', 'H', 'I', 'J', 'K', 'L', 'M',
           'N', 'O', 'P', 'Q', 'R', 'S', 'T', 'U', 'V', 'W', 'X', 'Y', 'Z',
           'a', 'b', 'c', 'd', 'e', 'f', 'g', 'h', 'i', 'j', 'k', 'l', 'm',
           'n', 'o', 'p', 'q', 'r', 's', 't', 'u', 'v', 'w', 'x', 'y',
           'z'].map (fun c => (c, RawCatCode.Regular .Letter))))

/-- `LexerError`.  The `IO` variant cannot arise in the embedding (the
byte source is a pure list of lines); `MalformedControlSequence` carries
the escape token's source location (the payload of the `anyhow` error
built by `error::new_token_error`). -/
inductive LexerError where
  | MalformedControlSequence (src : Source)
  | InvalidToken
deriving DecidableEq, Repr

/-- `RawToken` (private to `lexer.rs`). -/
structure RawToken where
  code : RawCatCode
  char : Char
  source : Source
deriving DecidableEq, Repr

/-- `RawLexer` state.  The `BufRead` reader is embedded as the list of
not-yet-read lines, each including its trailing newline character
(`read_line` semantics); at end of file `read_line` yields the empty
string, and a real reader never yields an empty line before end of file
(`ReaderWf` below). -/
structure RawSt where
  reader : List (List Char)
  /-- `current_line_as_chars` (also the `content` of `current_line`). -/
  chars : List Char
  /-- `next_char_index`. -/
  idx : Nat
  /-- `current_line.line_number`. -/
  line_number : Int
  /-- `current_line.file`. -/
  file : List Char
deriving DecidableEq, Repr

/-- `RawLexer::new`: empty current line with `line_number: -1`. -/
def RawSt.new (lines : List (List Char)) : RawSt :=
  { reader := lines, chars := [], idx := 0, line_number := -1, file := [] }

/-- `RawLexer::fill_buffer`: once the cursor passes the end of the current
line, read the next line (the empty string at end of file), reset the
cursor, and build a new current line with the line number bumped by one. -/
def fill_buffer (s : RawSt) : RawSt :=
  if s.chars.length ≤ s.idx then
    match s.reader with
    | [] =>
      { s with reader := [], chars := [], idx := 0,
               line_number := s.line_number + 1 }
    | l :: r =>
      { s with reader := r, chars := l, idx := 0,
               line_number := s.line_number + 1 }
  else s

/-- `RawLexer::advance`. -/
def advanceR (s : RawSt) : RawSt := { s with idx := s.idx + 1 }

/-- The current `Line` record referenced by emitted sources. -/
def RawSt.lineRec (s : RawSt) : Line := ⟨s.chars, s.line_number, s.file⟩

/-- `RawLexer::peek`: fill the buffer, then pair the character under the
cursor with its category, consulting the map per peek (`or_default` for
unmapped characters).  Returns the possibly mutated state together with
the peeked token. -/
def rawPeek (map : CatMap) (s : RawSt) : RawSt × Option RawToken :=
  (fill_buffer s,
    ((fill_buffer s).chars[(fill_buffer s).idx]?).map (fun c =>
      { code := RawCatCode.or_default (map.get c),
        char := c,
        source := ⟨(fill_buffer s).lineRec, (fill_buffer s).idx⟩ }))

/-- `RawLexer::next`: peek, then advance (unconditionally). -/
def rawNext (map : CatMap) (s : RawSt) : RawSt × Option RawToken :=
  (advanceR (rawPeek map s).1, (rawPeek map s).2)

/-- `struct Lexer` state. -/
structure LexSt where
  raw : RawSt
  trim_next_whitespace : Bool
  new_par_control_sequence_name : List Char
deriving DecidableEq, Repr

/-- `Lexer::new`: fresh raw lexer, `trim_next_whitespace: false`, par name
`"par"`. -/
def LexSt.new (lines : List (List Char)) : LexSt :=
  { raw := RawSt.new lines, trim_next_whitespace := false,
    new_par_control_sequence_name := ['p', 'a', 'r'] }

/-- The characters not yet consumed: the rest of the current line plus all
unread lines.  The token values the lexer emits depend on the input only
through this list. -/
def restChars (s : RawSt) : List Char :=
  s.chars.drop s.idx ++ s.reader.flatten

/-- The number of unconsumed characters.  Every productive loop iteration
of the lexer decreases it, so `remChars s + 1` is enough fuel for every
loop below. -/
def remChars (s : RawSt) : Nat := (restChars s).length

/-- A reader that never yields an empty line before end of file — the
`BufRead::read_line` contract for a file (`read_line` includes the
delimiter, so only end of file produces an empty line). -/
def ReaderWf (s : RawSt) : Prop := ∀ l ∈ s.reader, l ≠ []

/-- Fuel-indexed `Lexer::consume_whitespace`: peek at consecutive
whitespace raw tokens, consuming them and counting the `EndOfLine` ones;
stop (without consuming) at the first non-whitespace token or at end of
input. -/
def consume_whitespaceF (map : CatMap) : Nat → RawSt → Nat × RawSt
  | 0, s => (0, s)
  | fuel + 1, s =>
    match rawPeek map s with
    | (s1, none) => (0, s1)
    | (s1, some rt) =>
      match rt.code with
      | .EndOfLine =>
        let r := consume_whitespaceF map fuel (advanceR s1)
        (r.1 + 1, r.2)
      | .Regular .Space => consume_whitespaceF map fuel (advanceR s1)
      | _ => (0, s1)

/-- `Lexer::consume_whitespace`. -/
def consume_whitespace (map : CatMap) (s : RawSt) : Nat × RawSt :=
  consume_whitespaceF map (remChars s + 1) s

/-- Fuel-indexed comment-skipping loop inlined in `Lexer::next` (lines
76-81): advance past raw tokens while the PEEKED token is not an
`EndOfLine`; the `EndOfLine` itself is left unconsumed (the loop `break`s
on peek), and end of input also stops the loop. -/
def comment_skipF (map : CatMap) : Nat → RawSt → RawSt
  | 0, s => s
  | fuel + 1, s =>
    match rawPeek map s with
    | (s1, none) => s1
    | (s1, some rt) =>
      if rt.code = .EndOfLine then s1
      else comment_skipF map fuel (advanceR s1)

/-- The comment-skipping loop of `Lexer::next`. -/
def comment_skip (map : CatMap) (s : RawSt) : RawSt :=
  comment_skipF map (remChars s + 1) s

/-- Fuel-indexed greedy letter loop of `Lexer::read_control_sequence`:
append every PEEKED `Regular(Letter)` raw token to the name, advancing
past it; stop at the first non-letter or end of input. -/
def cs_lettersF (map : CatMap) : Nat → RawSt → List Char → List Char × RawSt
  | 0, s, acc => (acc, s)
  | fuel + 1, s, acc =>
    match rawPeek map s with
    | (s1, some ⟨.Regular .Letter, c, _⟩) =>
        cs_lettersF map fuel (advanceR s1) (acc ++ [c])
    | (s1, _) => (acc, s1)

/-- The greedy letter loop of `Lexer::read_control_sequence`. -/
def cs_letters (map : CatMap) (s : RawSt) (acc : List Char) : List Char × RawSt :=
  cs_lettersF map (remChars s + 1) s acc

/-- `Lexer::read_control_sequence`: consume the character following the
escape.  End of input fails with `MalformedControlSequence` carrying the
escape token's source; a `Regular(Letter)` starts a greedy letter name;
anything else becomes a single-character name. -/
def read_control_sequence (map : CatMap) (escTok : RawToken) (s : RawSt) :
    Except LexerError (Value × RawSt) :=
  match rawNext map s with
  | (_, none) => .error (.MalformedControlSequence escTok.source)
  | (s1, some t) =>
    match t.code with
    | .Regular .Letter =>
      let r := cs_letters map s1 [t.char]
      .ok (.ControlSequence escTok.char r.1, r.2)
    | _ => .ok (.ControlSequence escTok.char [t.char], s1)

/-- Fuel-indexed `Lexer::next`.  The branches follow the `match
raw_token.code` in the source, in order: `Escape`; `EndOfLine` and
`Regular(Space)` enter whitespace collapsing; other `Regular` codes emit a
character token; `Comment` skips to the next `EndOfLine` (exclusive), sets
`trim_next_whitespace`, and continues; `Ignored` continues; `Invalid`
fails.  After emitting, `trim_next_whitespace` is set iff the emitted
value is a control sequence. -/
def lexNextF (map : CatMap) :
    Nat → LexSt → Except LexerError (Option Token × LexSt)
  | 0, s => .ok (none, s)
  | fuel + 1, s =>
    match rawNext map s.raw with
    | (s1, none) => .ok (none, ⟨s1, s.trim_next_whitespace,
        s.new_par_control_sequence_name⟩)
    | (s1, some rt) =>
      match rt.code with
      | .Escape =>
        match read_control_sequence map rt s1 with
        | .error e => .error e
        | .ok (v, s2) =>
          .ok (some ⟨v, rt.source⟩,
            ⟨s2, true, s.new_par_control_sequence_name⟩)
      | .EndOfLine =>
        let r := consume_whitespace map s1
        if r.1 + 1 < 2 then
          if s.trim_next_whitespace then
            lexNextF map fuel
              ⟨r.2, s.trim_next_whitespace, s.new_par_control_sequence_name⟩
          else
            .ok (some ⟨.Character rt.char .Space, rt.source⟩,
              ⟨r.2, false, s.new_par_control_sequence_name⟩)
        else
          .ok (some ⟨.ControlSequence '\\' s.new_par_control_sequence_name,
                rt.source⟩,
            ⟨r.2, true, s.new_par_control_sequence_name⟩)
      | .Regular .Space =>
        let r := consume_whitespace map s1
        if r.1 < 2 then
          if s.trim_next_whitespace then
            lexNextF map fuel
              ⟨r.2, s.trim_next_whitespace, s.new_par_control_sequence_name⟩
          else
            .ok (some ⟨.Character rt.char .Space, rt.source⟩,
              ⟨r.2, false, s.new_par_control_sequence_name⟩)
        else
          .ok (some ⟨.ControlSequence '\\' s.new_par_control_sequence_name,
                rt.source⟩,
            ⟨r.2, true, s.new_par_control_sequence_name⟩)
      | .Regular c =>
        .ok (some ⟨.Character rt.char c, rt.source⟩,
          ⟨s1, false, s.new_par_control_sequence_name⟩)
      | .Comment =>
        lexNextF map fuel
          ⟨comment_skip map s1, true, s.new_par_control_sequence_name⟩
      | .Ignored =>
        lexNextF map fuel
          ⟨s1, s.trim_next_whitespace, s.new_par_control_sequence_name⟩
      | .Invalid => .error .InvalidToken

/-- `Lexer::next`. -/
def lexNext (map : CatMap) (s : LexSt) : Except LexerError (Option Token × LexSt) :=
  lexNextF map (remChars s.raw + 1) s

/-- Fuel-indexed driver of the lexer tests' `run_test`: collect emitted
token values until `Ok(None)` or an error. -/
def lexAllF (map : CatMap) : Nat → LexSt → Except LexerError (List Value)
  | 0, _ => .ok []
  | fuel + 1, s =>
    match lexNext map s with
    | .error e => .error e
    | .ok (none, _) => .ok []
    | .ok (some t, s2) =>
      match lexAllF map fuel s2 with
      | .error e => .error e
      | .ok vs => .ok (t.value :: vs)

/-- Collect all token values the lexer emits (the tests' `run_test`). -/
def lexAll (map : CatMap) (s : LexSt) : Except LexerError (List Value) :=
  lexAllF map (remChars s.raw + 1) s

/-- Repeated calls of `Lexer::next`, each with its own category map. -/
def lexRun : List CatMap → LexSt → List (Except LexerError (Option Token))
  | [], _ => []
  | map :: maps, s =>
    match lexNext map s with
    | .error e => [.error e]
    | .ok (t, s2) => .ok t :: lexRun maps s2

/-- Fuel-indexed harvest of `(char, line_number)` pairs from the raw
lexer, for the line-numbering claim. -/
def rawLexAllF (map : CatMap) : Nat → RawSt → List (Char × Int)
  | 0, _ => []
  | fuel + 1, s =>
    match rawNext map s with
    | (_, none) => []
    | (s1, some rt) =>
      (rt.char, rt.source.line.line_number) :: rawLexAllF map fuel s1

/-- All `(char, line_number)` pairs the raw lexer produces. -/
def rawLexAll (map : CatMap) (s : RawSt) : List (Char × Int) :=
  rawLexAllF map (remChars s + 1) s

/-- Modelled from the claim: raw-lexer output when line numbers start at
`n` for the first line and increase by one per line. -/
def linesNumbered (n : Int) : List (List Char) → List (Char × Int)
  | [] => []
  | l :: ls => l.map (fun c => (c, n)) ++ linesNumbered (n + 1) ls

/-- Split an input text into the lines `BufRead::read_line` yields: each
line includes its trailing newline; a final line without a newline is
yielded as is. -/
def splitLinesAux : List Char → List Char → List (List Char)
  | [], acc => if acc.isEmpty then [] else [acc.reverse]
  | c :: cs, acc =>
    if c = '\n' then (c :: acc).reverse :: splitLinesAux cs []
    else splitLinesAux cs (c :: acc)

/-- Split an input text into `read_line` lines. -/
def splitLines (text : List Char) : List (List Char) :=
  splitLinesAux text []

/-- The category a character is classified with. -/
def catOf (map : CatMap) (c : Char) : RawCatCode :=
  RawCatCode.or_default (map.get c)

/-- Whitespace in the sense of `consume_whitespace`. -/
def isWsChar (map : CatMap) (c : Char) : Bool :=
  match catOf map c with
  | .EndOfLine => true
  | .Regular .Space => true
  | _ => false

/-- An `EndOfLine` character. -/
def isEolChar (map : CatMap) (c : Char) : Bool :=
  match catOf map c with
  | .EndOfLine => true
  | _ => false

/-- Modelled from the claim (C3): comment skipping that discards raw
tokens "through and including the next EndOfLine".  Identical to
`comment_skipF` except that it CONSUMES the terminating `EndOfLine`
(`rawNext` instead of a peek-and-break). -/
def comment_skip_claimF (map : CatMap) : Nat → RawSt → RawSt
  | 0, s => s
  | fuel + 1, s =>
    match rawNext map s with
    | (s1, none) => s1
    | (s1, some rt) =>
      if rt.code = .EndOfLine then s1
      else comment_skip_claimF map fuel s1

/-- Modelled from the claim (C3): the claim's comment skipping. -/
def comment_skip_claim (map : CatMap) (s : RawSt) : RawSt :=
  comment_skip_claimF map (remChars s + 1) s

/-- Modelled from the claim (C3): `Lexer::next` as the claim describes it
— identical to `lexNextF` except that the `Comment` arm discards through
AND INCLUDING the next `EndOfLine` and continues after it. -/
def lexNextClaimF (map : CatMap) :
    Nat → LexSt → Except LexerError (Option Token × LexSt)
  | 0, s => .ok (none, s)
  | fuel + 1, s =>
    match rawNext map s.raw with
    | (s1, none) => .ok (none, ⟨s1, s.trim_next_whitespace,
        s.new_par_control_sequence_name⟩)
    | (s1, some rt) =>
      match rt.code with
      | .Escape =>
        match read_control_sequence map rt s1 with
        | .error e => .error e
        | .ok (v, s2) =>
          .ok (some ⟨v, rt.source⟩,
            ⟨s2, true, s.new_par_control_sequence_name⟩)
      | .EndOfLine =>
        let r := consume_whitespace map s1
        if r.1 + 1 < 2 then
          if s.trim_next_whitespace then
            lexNextClaimF map fuel
              ⟨r.2, s.trim_next_whitespace, s.new_par_control_sequence_name⟩
          else
            .ok (some ⟨.Character rt.char .Space, rt.source⟩,
              ⟨r.2, false, s.new_par_control_sequence_name⟩)
        else
          .ok (some ⟨.ControlSequence '\\' s.new_par_control_sequence_name,
                rt.source⟩,
            ⟨r.2, true, s.new_par_control_sequence_name⟩)
      | .Regular .Space =>
        let r := consume_whitespace map s1
        if r.1 < 2 then
          if s.trim_next_whitespace then
            lexNextClaimF map fuel
              ⟨r.2, s.trim_next_whitespace, s.new_par_control_sequence_name⟩
          else
            .ok (some ⟨.Character rt.char .Space, rt.source⟩,
              ⟨r.2, false, s.new_par_control_sequence_name⟩)
        else
          .ok (some ⟨.ControlSequence '\\' s.new_par_control_sequence_name,
                rt.source⟩,
            ⟨r.2, true, s.new_par_control_sequence_name⟩)
      | .Regular c =>
        .ok (some ⟨.Character rt.char c, rt.source⟩,
          ⟨s1, false, s.new_par_control_sequence_name⟩)
      | .Comment =>
        lexNextClaimF map fuel
          ⟨comment_skip_claim map s1, true, s.new_par_control_sequence_name⟩
      | .Ignored =>
        lexNextClaimF map fuel
          ⟨s1, s.trim_next_whitespace, s.new_par_control_sequence_name⟩
      | .Invalid => .error .InvalidToken

/-- Modelled from the claim (C3): wrapper for `lexNextClaimF`. -/
def lexNextClaim (map : CatMap) (s : LexSt) :
    Except LexerError (Option Token × LexSt) :=
  lexNextClaimF map (remChars s.raw + 1) s

/-- Modelled from the claim (C3): collect all token values of the claim's
lexer. -/
def lexAllClaimF (map : CatMap) : Nat → LexSt → Except LexerError (List Value)
  | 0, _ => .ok []
  | fuel + 1, s =>
    match lexNextClaim map s with
    | .error e => .error e
    | .ok (none, _) => .ok []
    | .ok (some t, s2) =>
      match lexAllClaimF map fuel s2 with
      | .error e => .error e
      | .ok vs => .ok (t.value :: vs)

/-- Modelled from the claim (C3): wrapper for `lexAllClaimF`. -/
def lexAllClaim (map : CatMap) (s : LexSt) : Except LexerError (List Value) :=
  lexAllClaimF map (remChars s.raw + 1) s

/-! ### Conditional primitives (`src/tex/primitive/library/conditional.rs`)

`std::any::TypeId::of::<T>()` for the three private unit structs `If`,
`Else`, `Fi` is embedded as a three-element enum: distinct Rust types have
distinct `TypeId`s. -/

/-- The `TypeId`s of the conditional primitive types. -/
inductive PrimTag where
  | ifTag
  | elseTag
  | fiTag
deriving DecidableEq, Repr

/-- An expansion primitive as seen through the `ExpansionPrimitive` trait:
its `call` (here for primitives that ignore their input and return a fixed
stream) and its `id`.  The trait's default `id` implementation returns
`None`. -/
structure ExpansionPrimitiveM where
  call : Unit → List Value
  id : Option PrimTag

/-- `conditional::get_else`: the `Else` unit struct.  Its `call` returns
`VecStream::new(vec![])` (an empty stream) and it OVERRIDES `id` to return
`Some(TypeId::of::<Else>())`. -/
def get_else : ExpansionPrimitiveM :=
  { call := fun _ => [], id := some .elseTag }

/-- `conditional::get_fi`: the `Fi` unit struct.  Its `call` returns
`VecStream::new(vec![])`; it does NOT override `id`, so the trait default
(`None`) applies. -/
def get_fi : ExpansionPrimitiveM :=
  { call := fun _ => [], id := none }

/-- The error taxonomy of the spec that is relevant to primitives
(`UnexpectedEndOfInput` is the error `\if` is documented to raise at end
of input; the code never constructs it). -/
inductive TexError where
  | UnexpectedEndOfInput
deriving DecidableEq, Repr

/-- `conditional::IfF` (also the body of `If::call`): read tokens from the
unexpanded stream, discarding them, until a control sequence bound to an
expansion primitive whose `id()` is `Some(TypeId::of::<Else>())` is found;
then return an empty stream.  `getPrim name` models
`state.get_expansion_primitive(&name)`, returning the primitive's `id()`
when the name is bound.  When the stream is exhausted the loop falls
through and the function returns `Ok` with an empty stream (the `TODO` in
the source notes it should be an unexpected-end-of-input error). -/
def ifCall (getPrim : List Char → Option (Option PrimTag)) :
    List Value → Except TexError (List Value)
  | [] => .ok []
  | t :: rest =>
    match t with
    | .ControlSequence _ name =>
      match getPrim name with
      | some cid =>
        if cid = some PrimTag.elseTag then .ok []
        else ifCall getPrim rest
      | none => ifCall getPrim rest
    | .Character _ _ => ifCall getPrim rest

/-! ### Driver loop and CLI (`src/tex/driver.rs`, `src/main.rs`)

The driver loop `driver::run` repeatedly calls `input.next()` on the
expansion input and reacts to the result; we abstract the stream of results
it observes as a finite list (`.ok none` = end of input, `.error` = a
component failed).  Every `println!` in `run` and `main` writes to
STANDARD OUTPUT; the model records the lines printed. -/

/-- A line printed to standard output by the driver or by `main`. -/
inductive CliPrint where
  /-- `println!("{:?}", token)` in the driver loop. -/
  | token (v : Value)
  /-- `println!("ERROR")` in the driver loop's `Err` arm. -/
  | errorLine
  /-- `println!("Pass the tex file as an argument")`. -/
  | usageLine
  /-- `println!("Failed: {}", err)`. -/
  | failedLine
deriving DecidableEq, Repr

/-- `driver::run`'s loop: print each token; stop silently at `Ok(None)`;
on `Err(_)` print `ERROR` (to stdout) and break.  The function returns `()`
in the source — the error value is dropped. -/
def driver_run : List (Except TexError (Option Value)) → List CliPrint
  | [] => []
  | .ok none :: _ => []
  | .ok (some t) :: rest => .token t :: driver_run rest
  | .error _ :: _ => [.errorLine]

/-- `main`: exit code and printed lines.  `args` includes the program name
at index 0.  `openOk` abstracts whether `open_file` succeeded; `trace` is
the result sequence the driver loop observes.  After `driver::run`
returns, `run` returns `Ok(())`, so `main` falls through and the process
exits 0. -/
def main_run (args : List (List Char)) (openOk : Bool)
    (trace : List (Except TexError (Option Value))) : Nat × List CliPrint :=
  match args.get? 1 with
  | none => (1, [.usageLine])
  | some _ => if openOk then (0, driver_run trace) else (1, [.failedLine])

/-! ## Theorems -/

/-! ### ScopedMap lemmas and claim C1 -/

omit [DecidableEq K] in
theorem endS_begin (m : ScopedMap K V) : m.begin_scope.endS = m := rfl

theorem insert_changed_ne (m : ScopedMap K V) (k : K) (v : V)
    (h : m.changed_keys_stack ≠ []) :
    (m.insert k v).changed_keys_stack ≠ [] := by
  cases m with
  | mk st ch =>
    cases ch with
    | nil => exact absurd rfl h
    | cons cs rest =>
      simp only [ScopedMap.insert]
      split <;> simp

theorem insert_global_changed_ne (m : ScopedMap K V) (k : K) (v : V)
    (h : m.changed_keys_stack ≠ []) :
    (m.insert_global k v).changed_keys_stack ≠ [] := by
  cases m with
  | mk st ch =>
    cases ch with
    | nil => exact absurd rfl h
    | cons cs rest => simp [ScopedMap.insert_global]

theorem endS_insert (m : ScopedMap K V) (k : K) (v : V)
    (h : m.changed_keys_stack ≠ []) :
    (m.insert k v).endS = m.endS := by
  cases m with
  | mk st ch =>
    cases ch with
    | nil => exact absurd rfl h
    | cons cs rest =>
      by_cases hk : cs k = true
      · simp only [ScopedMap.insert]
        rw [if_pos hk]
        simp only [ScopedMap.endS, ScopedMap.end_scope]
        congr 1
        funext x
        by_cases hx : x = k
        · subst hx
          simp only [if_pos rfl, hk, if_true]
          cases st x with
          | nil => rfl
          | cons a t => cases t <;> simp [overwriteLast]
        · simp [hx]
      · simp only [ScopedMap.insert]
        rw [if_neg hk]
        simp only [ScopedMap.endS, ScopedMap.end_scope]
        congr 1
        funext x
        by_cases hx : x = k
        · subst hx
          simp only [if_pos rfl, if_true, hk, if_false]
          cases st x with
          | nil => simp
          | cons a t => cases t <;> simp
        · simp [hx]

theorem endS_insert_global (m : ScopedMap K V) (k : K) (v : V)
    (h : m.changed_keys_stack ≠ []) :
    (m.insert_global k v).endS =
      ⟨fun x => if x = k then [v] else m.endS.key_to_value_stack x,
       m.endS.changed_keys_stack.map (fun cs x => if x = k then false else cs x)⟩ := by
  cases m with
  | mk st ch =>
    cases ch with
    | nil => exact absurd rfl h
    | cons cs rest =>
      simp only [ScopedMap.insert_global, ScopedMap.endS, ScopedMap.end_scope,
        List.map_cons]
      congr 1
      funext x
      by_cases hx : x = k
      · subst hx; simp
      · simp [hx]

theorem lastGlobal_cons_ins (k : K) (v : V) (B : List (MapOp K V)) :
    lastGlobal (.insert k v :: B) = lastGlobal B := by
  funext x
  simp only [lastGlobal]
  cases lastGlobal B x <;> rfl

theorem lastGlobal_cons_begin (B : List (MapOp K V)) :
    lastGlobal (.begin_scope :: B) = lastGlobal B := by
  funext x
  simp only [lastGlobal]
  cases lastGlobal B x <;> rfl

theorem lastGlobal_cons_end (B : List (MapOp K V)) :
    lastGlobal (.end_scope :: B) = lastGlobal B := by
  funext x
  simp only [lastGlobal]
  cases lastGlobal B x <;> rfl

theorem lastGlobal_append (B1 B2 : List (MapOp K V)) (x : K) :
    lastGlobal (B1 ++ B2) x =
      match lastGlobal B2 x with
      | some w => some w
      | none => lastGlobal B1 x := by
  induction B1 with
  | nil =>
    simp only [List.nil_append, lastGlobal]
    cases lastGlobal B2 x <;> rfl
  | cons op B1 ih =>
    have ih2 : lastGlobal (B1.append B2) x =
        match lastGlobal B2 x with
        | some w => some w
        | none => lastGlobal B1 x := ih
    simp only [List.cons_append, lastGlobal, ih, ih2]
    cases lastGlobal B2 x <;> cases lastGlobal B1 x <;> rfl

theorem runOps_cons (m : ScopedMap K V) (op : MapOp K V) (ops : List (MapOp K V)) :
    runOps m (op :: ops) = runOps (applyOp m op) ops := rfl

theorem runOps_append (m : ScopedMap K V) (l1 l2 : List (MapOp K V)) :
    runOps m (l1 ++ l2) = runOps (runOps m l1) l2 := by
  simp [runOps, List.foldl_append]

/-- The net effect of a balanced operation sequence followed by the matching
`end_scope`: all mutations are rolled back except global inserts, which
replace the value stacks of their keys with singletons and are erased from
every change set. -/
theorem run_balanced {B : List (MapOp K V)} (hB : BalancedOps B) :
    ∀ m : ScopedMap K V, m.changed_keys_stack ≠ [] →
      runOps m (B ++ [MapOp.end_scope]) =
        ⟨fun k =>
           match lastGlobal B k with
           | some v => [v]
           | none => m.endS.key_to_value_stack k,
         m.endS.changed_keys_stack.map (clearG (lastGlobal B))⟩ := by
  induction hB with
  | nil =>
    intro m hm
    show m.endS = _
    have hc : clearG (lastGlobal ([] : List (MapOp K V))) = fun cs => cs := by
      funext cs x
      simp [clearG, lastGlobal]
    rw [hc]
    have hmap : List.map (fun cs : K → Bool => cs) m.endS.changed_keys_stack
        = m.endS.changed_keys_stack := by
      simp
    rw [hmap]
    rfl
  | ins k v hB ih =>
    intro m hm
    rw [List.cons_append, runOps_cons]
    show runOps (m.insert k v) _ = _
    rw [ih (m.insert k v) (insert_changed_ne m k v hm), endS_insert m k v hm,
      lastGlobal_cons_ins]
  | insg k v hB ih =>
    intro m hm
    rw [List.cons_append, runOps_cons]
    show runOps (m.insert_global k v) _ = _
    rw [ih (m.insert_global k v) (insert_global_changed_ne m k v hm),
      endS_insert_global m k v hm]
    rename_i B
    congr 1
    · funext x
      simp only [lastGlobal]
      cases h2 : lastGlobal B x with
      | some w => rfl
      | none =>
        by_cases hx : x = k
        · subst hx; simp
        · simp [hx]
    · rw [List.map_map]
      apply List.map_congr_left
      intro cs _
      funext x
      simp only [Function.comp, clearG, lastGlobal]
      cases h2 : lastGlobal B x with
      | some w => simp
      | none =>
        by_cases hx : x = k
        · subst hx; simp
        · simp [hx]
  | nest h1 h2 ih1 ih2 =>
    intro m hm
    rename_i B1 B2
    have hsplit :
        (MapOp.begin_scope :: B1 ++ MapOp.end_scope :: B2)
            ++ [MapOp.end_scope (K := K) (V := V)] =
          MapOp.begin_scope :: ((B1 ++ [MapOp.end_scope]) ++ (B2 ++ [MapOp.end_scope])) := by
      simp
    rw [hsplit, runOps_cons]
    show runOps (m.begin_scope) _ = _
    rw [runOps_append, ih1 m.begin_scope (by simp [ScopedMap.begin_scope]),
      endS_begin]
    obtain ⟨st, ch⟩ := m
    cases ch with
    | nil => exact absurd rfl hm
    | cons cs rest =>
      rw [ih2 _ (by simp)]
      have hlgF : lastGlobal (MapOp.begin_scope :: B1 ++ MapOp.end_scope :: B2) =
          fun x =>
            match lastGlobal B2 x with
            | some w => some w
            | none => lastGlobal B1 x := by
        funext x
        rw [lastGlobal_append, lastGlobal_cons_end, lastGlobal_cons_begin]
      rw [hlgF]
      simp only [ScopedMap.endS, ScopedMap.end_scope, List.map_cons]
      congr 1
      · funext x
        cases hg2 : lastGlobal B2 x with
        | some w => simp
        | none =>
          cases hg1 : lastGlobal B1 x with
          | some w => simp [clearG, hg1]
          | none => simp [clearG, hg1]
      · rw [List.map_map]
        apply List.map_congr_left
        intro c _
        funext x
        simp only [Function.comp, clearG]
        cases hg2 : lastGlobal B2 x with
        | some w => simp
        | none =>
          cases hg1 : lastGlobal B1 x with
          | some w => simp
          | none => simp

/-- C1: for every state of the map and every matched
`begin_scope`/`end_scope` pair enclosing a balanced operation sequence `B`,
every key's visible value after the `end_scope` equals its visible value
just before the `begin_scope` — except for keys passed to `insert_global`
inside the pair, which instead show their last globally-inserted value. -/
theorem c1_scopedmap_balance (m : ScopedMap K V) {B : List (MapOp K V)}
    (hB : BalancedOps B) (k : K) :
    (runOps m (MapOp.begin_scope :: (B ++ [MapOp.end_scope]))).get k =
      match lastGlobal B k with
      | some v => some v
      | none => m.get k := by
  rw [runOps_cons]
  show (runOps (m.begin_scope) _).get k = _
  rw [run_balanced hB m.begin_scope (by simp [ScopedMap.begin_scope])]
  simp only [ScopedMap.get, endS_begin]
  cases lastGlobal B k <;> rfl

/-- C1 witness: a concrete trace over `Nat` keys/values.  Start from the
map `{1 ↦ 10}`, open a scope, insert `1 ↦ 20` and globally `2 ↦ 30`, close
the scope: key 1 is restored to 10 and key 2 keeps 30. -/
theorem c1_scopedmap_balance_witness :
    (runOps ((ScopedMap.new : ScopedMap Nat Nat).insert 1 10)
        (MapOp.begin_scope ::
          ([MapOp.insert 1 20, MapOp.insert_global 2 30] ++ [MapOp.end_scope]))).get 1
        = some 10
    ∧ (runOps ((ScopedMap.new : ScopedMap Nat Nat).insert 1 10)
        (MapOp.begin_scope ::
          ([MapOp.insert 1 20, MapOp.insert_global 2 30] ++ [MapOp.end_scope]))).get 2
        = some 30 := by
  constructor
  · exact (c1_scopedmap_balance _
      (BalancedOps.ins 1 20 (BalancedOps.insg 2 30 BalancedOps.nil)) 1).trans rfl
  · exact (c1_scopedmap_balance _
      (BalancedOps.ins 1 20 (BalancedOps.insg 2 30 BalancedOps.nil)) 2).trans rfl

/-- C9: the category-code integer encoding round-trips: `CatCode::from_int`
inverts `CatCode::int`, `RawCatCode::from_int` inverts `RawCatCode::int`,
and every integer in `0..=15` decodes to a `RawCatCode` that encodes back
to it. -/
theorem c9_catcode_roundtrip :
    (∀ c : CatCode, CatCode.from_int c.int = some c)
    ∧ (∀ r : RawCatCode, RawCatCode.from_int r.int = some r)
    ∧ (∀ i : Nat, i ≤ 15 → ∃ r : RawCatCode,
        RawCatCode.from_int i = some r ∧ r.int = i) := by
  refine ⟨fun c => by cases c <;> rfl, fun r => ?_, fun i hi => ?_⟩
  · cases r with
    | Regular c => cases c <;> rfl
    | _ => rfl
  · interval_cases i <;> exact ⟨_, rfl, rfl⟩

/-- C9 witness: the third conjunct instantiated at `i = 7`. -/
theorem c9_catcode_roundtrip_witness :
    ∃ r : RawCatCode, RawCatCode.from_int 7 = some r ∧ r.int = 7 :=
  c9_catcode_roundtrip.2.2 7 (by decide)

/-! ### Token equality and claim C5 -/

theorem value_eq_iff (a b : Value) : value_eq a b = true ↔ a = b := by
  cases a <;> cases b <;> simp [value_eq]

theorem line_eq_iff (a b : Line) : line_eq a b = true ↔ a = b := by
  cases a
  cases b
  simp [line_eq, Line.mk.injEq, and_assoc]

theorem source_eq_iff (a b : Source) : source_eq a b = true ↔ a = b := by
  cases a
  cases b
  simp [source_eq, line_eq_iff, Source.mk.injEq]

/-- C5 counterexample: two tokens with equal values but different source
positions are NOT equal under the derived `PartialEq`, because the derive
compares the `source` field too.  This falsifies "t1 == t2 iff
t1.value == t2.value". -/
theorem c5_token_eq_counterexample :
    token_eq ⟨.Character 'x' .Letter, ⟨⟨['x'], 0, []⟩, 0⟩⟩
        ⟨.Character 'x' .Letter, ⟨⟨['x'], 0, []⟩, 1⟩⟩ = false
    ∧ (Token.mk (.Character 'x' .Letter) ⟨⟨['x'], 0, []⟩, 0⟩).value
        = (Token.mk (.Character 'x' .Letter) ⟨⟨['x'], 0, []⟩, 1⟩).value := by
  constructor
  · rfl
  · rfl

/-- C5 amended: `Token`'s derived equality is structural over BOTH fields:
`t1 == t2` holds iff the values are equal AND the source locations are
equal. -/
theorem c5_token_eq_amended (t1 t2 : Token) :
    token_eq t1 t2 = true ↔ t1.value = t2.value ∧ t1.source = t2.source := by
  simp [token_eq, value_eq_iff, source_eq_iff]

/-! ### Conditional primitives: claims C2 and C6 -/

/-- C2: when the unexpanded stream is exhausted before a control sequence
bound to an `Else`-tagged primitive is found, `\if`'s call SUCCEEDS with an
empty replacement stream — it does not fail with `UnexpectedEndOfInput`.
(The spec and the source's own TODO comment say it should fail.) -/
theorem c2_if_end_of_input :
    ifCall (fun _ => none) [] = .ok []
    ∧ ifCall (fun _ => none) [.Character 'A' .Letter] = .ok []
    ∧ (∀ getPrim : List Char → Option (Option PrimTag),
        ifCall getPrim [] = .ok []) := by
  exact ⟨rfl, rfl, fun _ => rfl⟩

/-- C6 counterexample: `get_fi`'s primitive does not override `id`, so its
`id()` is `None` — there is no pair of distinct `Some` tags for `\else`
and `\fi`. -/
theorem c6_fi_id_counterexample :
    get_fi.id = none
    ∧ ¬∃ a b : PrimTag, get_else.id = some a ∧ get_fi.id = some b ∧ a ≠ b := by
  refine ⟨rfl, ?_⟩
  rintro ⟨a, b, -, hb, -⟩
  simp [get_fi] at hb

/-- C6 amended: `get_else`'s primitive overrides `id` to the `Else` tag;
`get_fi`'s primitive keeps the trait default `None`; the `call` of both
returns an empty stream. -/
theorem c6_else_fi_amended :
    get_else.id = some PrimTag.elseTag ∧ get_fi.id = none
    ∧ (∀ u : Unit, get_else.call u = []) ∧ (∀ u : Unit, get_fi.call u = []) :=
  ⟨rfl, rfl, fun _ => rfl, fun _ => rfl⟩

/-! ### Driver and CLI: claim C8 -/

/-- C8 counterexample: a run whose driver input errors on the first pull:
the loop prints `ERROR` to standard output and breaks, `run` returns
`Ok(())`, and the process exits 0 — not 1, and nothing is written to
standard error. -/
theorem c8_exit_code_counterexample :
    main_run [['t'], ['f']] true [.error .UnexpectedEndOfInput]
        = (0, [CliPrint.errorLine])
    ∧ (0 : Nat) ≠ 1 := by
  exact ⟨rfl, by decide⟩

/-- C8 amended: errors returned by a component are caught INSIDE the
driver loop, which prints `ERROR` to standard output and stops; the
process then exits 0.  Exit code 1 occurs only when no argument is given
or the input file cannot be opened, and those messages also go to standard
output. -/
theorem c8_driver_swallows_errors :
    (∀ (ts : List Value) (e : TexError)
        (rest : List (Except TexError (Option Value))),
      driver_run (ts.map (fun t => .ok (some t)) ++ .error e :: rest)
        = ts.map CliPrint.token ++ [CliPrint.errorLine])
    ∧ (∀ (a b : List Char) (args : List (List Char))
          (trace : List (Except TexError (Option Value))),
        main_run (a :: b :: args) true trace = (0, driver_run trace))
    ∧ (∀ (a : List Char) (openOk : Bool)
          (trace : List (Except TexError (Option Value))),
        main_run [a] openOk trace = (1, [CliPrint.usageLine]))
    ∧ (∀ (a b : List Char) (args : List (List Char))
          (trace : List (Except TexError (Option Value))),
        main_run (a :: b :: args) false trace = (1, [CliPrint.failedLine])) := by
  refine ⟨?_, ?_, ?_, ?_⟩
  · intro ts e rest
    induction ts with
    | nil => rfl
    | cons t ts ih => simp [driver_run, ih]
  · intro a b args trace
    rfl
  · intro a openOk trace
    rfl
  · intro a b args trace
    rfl

/-! ### Lexer: basic state lemmas -/

theorem rawPeek_fst (map : CatMap) (s : RawSt) :
    (rawPeek map s).1 = fill_buffer s := rfl

theorem restChars_fill (s : RawSt) : restChars (fill_buffer s) = restChars s := by
  unfold fill_buffer
  split
  · rename_i h
    cases hr : s.reader with
    | nil => simp [restChars, List.drop_eq_nil_of_le h, hr]
    | cons l r => simp [restChars, List.drop_eq_nil_of_le h, hr]
  · rfl

theorem remChars_fill (s : RawSt) : remChars (fill_buffer s) = remChars s := by
  simp [remChars, restChars_fill]

theorem reader_wf_fill {s : RawSt} (h : ReaderWf s) : ReaderWf (fill_buffer s) := by
  unfold fill_buffer
  split
  · cases hr : s.reader with
    | nil =>
      intro l hl
      simp at hl
    | cons a r =>
      intro l hl
      refine h l ?_
      rw [hr]
      exact List.mem_cons_of_mem a hl
  · exact h

theorem reader_wf_advance {s : RawSt} (h : ReaderWf s) : ReaderWf (advanceR s) := h

theorem restChars_advance_of_empty {s : RawSt} (h : restChars s = []) :
    restChars (advanceR s) = [] := by
  unfold restChars at h ⊢
  rcases List.append_eq_nil.mp h with ⟨h1, h2⟩
  have h3 : s.chars.length ≤ s.idx := by
    by_contra hlt
    have := List.drop_eq_nil_iff.mp h1
    omega
  simp [advanceR, h2, List.drop_eq_nil_of_le]
  omega

theorem rawPeek_some {map : CatMap} {s s1 : RawSt} {rt : RawToken}
    (h : rawPeek map s = (s1, some rt)) :
    s1 = fill_buffer s
    ∧ rt.code = catOf map rt.char
    ∧ restChars s = rt.char :: restChars (advanceR s1) := by
  unfold rawPeek at h
  injection h with h1 h2
  subst h1
  obtain ⟨c, hc, hf⟩ := Option.map_eq_some'.mp h2
  obtain ⟨hlt, hget⟩ := List.getElem?_eq_some_iff.mp hc
  subst hf
  refine ⟨rfl, rfl, ?_⟩
  rw [← restChars_fill s]
  unfold restChars advanceR
  simp only
  rw [List.drop_eq_getElem_cons hlt, hget]
  rfl

theorem rawPeek_none {map : CatMap} {s s1 : RawSt} (wf : ReaderWf s)
    (h : rawPeek map s = (s1, none)) :
    s1 = fill_buffer s ∧ restChars s = [] := by
  unfold rawPeek at h
  injection h with h1 h2
  subst h1
  refine ⟨rfl, ?_⟩
  have hnone : (fill_buffer s).chars[(fill_buffer s).idx]? = none := by
    cases hx : (fill_buffer s).chars[(fill_buffer s).idx]? with
    | none => rfl
    | some c => rw [hx] at h2; simp at h2
  have hlen : (fill_buffer s).chars.length ≤ (fill_buffer s).idx :=
    List.getElem?_eq_none_iff.mp hnone
  by_cases hcond : s.chars.length ≤ s.idx
  · cases hr : s.reader with
    | nil =>
      simp [restChars, List.drop_eq_nil_of_le hcond, hr]
    | cons a r =>
      have hfill : fill_buffer s =
          { s with reader := r, chars := a, idx := 0,
                   line_number := s.line_number + 1 } := by
        unfold fill_buffer
        rw [if_pos hcond, hr]
      rw [hfill] at hlen
      simp at hlen
      exact absurd hlen (wf a (by rw [hr]; exact List.mem_cons_self a r))
  · have hfill : fill_buffer s = s := by
      unfold fill_buffer
      rw [if_neg hcond]
    rw [hfill] at hlen
    omega

theorem rawNext_some {map : CatMap} {s s1 : RawSt} {rt : RawToken}
    (h : rawNext map s = (s1, some rt)) :
    rt.code = catOf map rt.char
    ∧ restChars s = rt.char :: restChars s1 := by
  unfold rawNext at h
  injection h with h1 h2
  have hp : rawPeek map s = ((rawPeek map s).1, some rt) := Prod.ext rfl h2
  obtain ⟨-, hcode, hrest⟩ := rawPeek_some hp
  subst h1
  exact ⟨hcode, hrest⟩

theorem rawNext_some_rem {map : CatMap} {s s1 : RawSt} {rt : RawToken}
    (h : rawNext map s = (s1, some rt)) :
    remChars s1 + 1 = remChars s := by
  have h2 := (rawNext_some h).2
  simp [remChars, h2]

theorem rawNext_none {map : CatMap} {s s1 : RawSt} (wf : ReaderWf s)
    (h : rawNext map s = (s1, none)) :
    restChars s = [] ∧ restChars s1 = [] ∧ ReaderWf s1 := by
  unfold rawNext at h
  injection h with h1 h2
  have hp : rawPeek map s = ((rawPeek map s).1, none) := Prod.ext rfl h2
  obtain ⟨-, hempty⟩ := rawPeek_none wf hp
  subst h1
  have hq : (rawPeek map s).1 = fill_buffer s := rawPeek_fst map s
  have hfe : restChars (fill_buffer s) = [] := by rw [restChars_fill]; exact hempty
  refine ⟨hempty, ?_, ?_⟩
  · rw [hq]
    exact restChars_advance_of_empty hfe
  · rw [hq]
    exact reader_wf_advance (reader_wf_fill wf)

theorem rawNext_of_empty (map : CatMap) {s : RawSt} (h : restChars s = []) :
    rawNext map s = (advanceR (fill_buffer s), none) := by
  unfold rawNext rawPeek
  have hfe : restChars (fill_buffer s) = [] := by rw [restChars_fill]; exact h
  have hd : (fill_buffer s).chars.drop (fill_buffer s).idx = [] :=
    (List.append_eq_nil.mp hfe).1
  have hlen : (fill_buffer s).chars.length ≤ (fill_buffer s).idx :=
    List.drop_eq_nil_iff.mp hd
  rw [List.getElem?_eq_none hlen]
  rfl

theorem rawNext_wf {map : CatMap} {s s1 : RawSt} {t : Option RawToken}
    (wf : ReaderWf s) (h : rawNext map s = (s1, t)) : ReaderWf s1 := by
  unfold rawNext at h
  injection h with h1 h2
  subst h1
  rw [rawPeek_fst]
  exact reader_wf_advance (reader_wf_fill wf)

/-! ### Lexer: whitespace collapsing -/

theorem consume_whitespaceF_rem (map : CatMap) :
    ∀ fuel s, remChars (consume_whitespaceF map fuel s).2 ≤ remChars s := by
  intro fuel
  induction fuel with
  | zero => intro s; exact le_refl _
  | succ n ih =>
    intro s
    simp only [consume_whitespaceF]
    cases hp : rawPeek map s with
    | mk s1 t =>
      cases t with
      | none =>
        have h1 : s1 = fill_buffer s := by
          have := congrArg Prod.fst hp
          simpa [rawPeek_fst] using this.symm
        simp [h1, remChars_fill]
      | some rt =>
        obtain ⟨code, ch, src⟩ := rt
        obtain ⟨h1, -, hrest⟩ := rawPeek_some hp
        have hadv : remChars (advanceR s1) + 1 = remChars s := by
          simp only [remChars, hrest, List.length_cons]
        have hrec : remChars (consume_whitespaceF map n (advanceR s1)).2
            ≤ remChars s := by
          calc remChars (consume_whitespaceF map n (advanceR s1)).2
              ≤ remChars (advanceR s1) := ih (advanceR s1)
            _ ≤ remChars s := by omega
        have hfill : remChars s1 ≤ remChars s := by
          rw [h1, remChars_fill]
        cases code with
        | EndOfLine => exact hrec
        | Regular c => cases c <;> first | exact hrec | exact hfill
        | _ => exact hfill

theorem consume_whitespaceF_stable (map : CatMap) :
    ∀ n m s, remChars s < n → remChars s < m →
      consume_whitespaceF map n s = consume_whitespaceF map m s := by
  intro n
  induction n with
  | zero => intro m s h1 h2; omega
  | succ n ih =>
    intro m s h1 h2
    cases m with
    | zero => omega
    | succ m =>
      simp only [consume_whitespaceF]
      cases hp : rawPeek map s with
      | mk s1 t =>
        cases t with
        | none => rfl
        | some rt =>
          obtain ⟨code, ch, src⟩ := rt
          obtain ⟨-, -, hrest⟩ := rawPeek_some hp
          have hadv : remChars (advanceR s1) + 1 = remChars s := by
            simp only [remChars, hrest, List.length_cons]
          have hrec : consume_whitespaceF map n (advanceR s1)
              = consume_whitespaceF map m (advanceR s1) :=
            ih m (advanceR s1) (by omega) (by omega)
          cases code with
          | EndOfLine => dsimp only; rw [hrec]
          | Regular c =>
            cases c
            case Space => dsimp only; rw [hrec]
            all_goals rfl
          | _ => rfl

theorem consume_whitespace_unfold (map : CatMap) (s : RawSt) :
    consume_whitespace map s =
      match rawPeek map s with
      | (s1, none) => (0, s1)
      | (s1, some rt) =>
        match rt.code with
        | .EndOfLine =>
          ((consume_whitespace map (advanceR s1)).1 + 1,
           (consume_whitespace map (advanceR s1)).2)
        | .Regular .Space => consume_whitespace map (advanceR s1)
        | _ => (0, s1) := by
  show consume_whitespaceF map (remChars s + 1) s = _
  simp only [consume_whitespaceF]
  cases hp : rawPeek map s with
  | mk s1 t =>
    cases t with
    | none => rfl
    | some rt =>
      obtain ⟨code, ch, src⟩ := rt
      obtain ⟨-, -, hrest⟩ := rawPeek_some hp
      have hadv : remChars (advanceR s1) + 1 = remChars s := by
        simp only [remChars, hrest, List.length_cons]
      have hstab : consume_whitespaceF map (remChars s) (advanceR s1)
          = consume_whitespace map (advanceR s1) :=
        consume_whitespaceF_stable map _ _ _ (by omega) (by omega)
      cases code with
      | EndOfLine => dsimp only; rw [hstab]
      | Regular c =>
        cases c
        case Space => dsimp only; rw [hstab]
        all_goals rfl
      | _ => rfl

theorem consume_whitespace_rem (map : CatMap) (s : RawSt) :
    remChars (consume_whitespace map s).2 ≤ remChars s :=
  consume_whitespaceF_rem map _ s

theorem consume_whitespaceF_spec (map : CatMap) :
    ∀ fuel s, remChars s < fuel → ReaderWf s →
      (consume_whitespaceF map fuel s).1
          = ((restChars s).takeWhile (isWsChar map)).countP (isEolChar map)
      ∧ restChars (consume_whitespaceF map fuel s).2
          = (restChars s).dropWhile (isWsChar map)
      ∧ ReaderWf (consume_whitespaceF map fuel s).2 := by
  intro fuel
  induction fuel with
  | zero => intro s h; omega
  | succ n ih =>
    intro s hlt wf
    simp only [consume_whitespaceF]
    cases hp : rawPeek map s with
    | mk s1 t =>
      cases t with
      | none =>
        obtain ⟨h1, hempty⟩ := rawPeek_none wf hp
        subst h1
        dsimp only
        rw [hempty]
        refine ⟨rfl, ?_, reader_wf_fill wf⟩
        rw [restChars_fill, hempty]
        rfl
      | some rt =>
        obtain ⟨code, ch, src⟩ := rt
        obtain ⟨h1, hcode, hrest⟩ := rawPeek_some hp
        dsimp only at hcode hrest
        have wf1 : ReaderWf (advanceR s1) := by
          rw [h1]
          exact reader_wf_advance (reader_wf_fill wf)
        have hadv : remChars (advanceR s1) + 1 = remChars s := by
          simp only [remChars, hrest, List.length_cons]
        have hfill1 : restChars s1 = restChars s := by
          rw [h1, restChars_fill]
        have wfs1 : ReaderWf s1 := by
          rw [h1]
          exact reader_wf_fill wf
        cases code with
        | EndOfLine =>
          dsimp only
          have hws : isWsChar map ch = true := by
            rw [isWsChar, ← hcode]
          have heol : isEolChar map ch = true := by
            rw [isEolChar, ← hcode]
          obtain ⟨ihc, ihd, ihw⟩ := ih (advanceR s1) (by omega) wf1
          refine ⟨?_, ?_, ihw⟩
          · rw [ihc, hrest, List.takeWhile_cons_of_pos hws,
              List.countP_cons_of_pos _ _ heol]
          · rw [ihd, hrest, List.dropWhile_cons_of_pos hws]
        | Regular c =>
          cases c with
          | Space =>
            dsimp only
            have hws : isWsChar map ch = true := by
              rw [isWsChar, ← hcode]
            have heol : isEolChar map ch = false := by
              rw [isEolChar, ← hcode]
            obtain ⟨ihc, ihd, ihw⟩ := ih (advanceR s1) (by omega) wf1
            refine ⟨?_, ?_, ihw⟩
            · rw [ihc, hrest, List.takeWhile_cons_of_pos hws,
                List.countP_cons_of_neg _ _ (by simp [heol])]
            · rw [ihd, hrest, List.dropWhile_cons_of_pos hws]
          | _ =>
            dsimp only
            have hws : ¬ isWsChar map ch = true := by
              simp [isWsChar, ← hcode]
            refine ⟨?_, ?_, wfs1⟩
            · rw [hrest, List.takeWhile_cons_of_neg hws]
              rfl
            · rw [hfill1, hrest, List.dropWhile_cons_of_neg hws]
        | _ =>
          dsimp only
          have hws : ¬ isWsChar map ch = true := by
            simp [isWsChar, ← hcode]
          refine ⟨?_, ?_, wfs1⟩
          · rw [hrest, List.takeWhile_cons_of_neg hws]
            rfl
          · rw [hfill1, hrest, List.dropWhile_cons_of_neg hws]

theorem consume_whitespace_spec (map : CatMap) (s : RawSt) (wf : ReaderWf s) :
    (consume_whitespace map s).1
        = ((restChars s).takeWhile (isWsChar map)).countP (isEolChar map)
    ∧ restChars (consume_whitespace map s).2
        = (restChars s).dropWhile (isWsChar map)
    ∧ ReaderWf (consume_whitespace map s).2 :=
  consume_whitespaceF_spec map (remChars s + 1) s (by omega) wf

/-! ### Lexer: comment skipping -/

theorem comment_skipF_rem (map : CatMap) :
    ∀ fuel s, remChars (comment_skipF map fuel s) ≤ remChars s := by
  intro fuel
  induction fuel with
  | zero => intro s; exact le_refl _
  | succ n ih =>
    intro s
    simp only [comment_skipF]
    cases hp : rawPeek map s with
    | mk s1 t =>
      cases t with
      | none =>
        have h1 : s1 = fill_buffer s := by
          have := congrArg Prod.fst hp
          simpa [rawPeek_fst] using this.symm
        simp [h1, remChars_fill]
      | some rt =>
        obtain ⟨code, ch, src⟩ := rt
        obtain ⟨h1, -, hrest⟩ := rawPeek_some hp
        have hadv : remChars (advanceR s1) + 1 = remChars s := by
          simp only [remChars, hrest, List.length_cons]
        have hfill : remChars s1 ≤ remChars s := by
          rw [h1, remChars_fill]
        dsimp only
        split
        · exact hfill
        · calc remChars (comment_skipF map n (advanceR s1))
              ≤ remChars (advanceR s1) := ih (advanceR s1)
            _ ≤ remChars s := by omega

theorem comment_skip_rem (map : CatMap) (s : RawSt) :
    remChars (comment_skip map s) ≤ remChars s :=
  comment_skipF_rem map _ s

theorem comment_skipF_spec (map : CatMap) :
    ∀ fuel s, remChars s < fuel → ReaderWf s →
      restChars (comment_skipF map fuel s)
          = (restChars s).dropWhile (fun c => !(isEolChar map c))
      ∧ ReaderWf (comment_skipF map fuel s) := by
  intro fuel
  induction fuel with
  | zero => intro s h; omega
  | succ n ih =>
    intro s hlt wf
    simp only [comment_skipF]
    cases hp : rawPeek map s with
    | mk s1 t =>
      cases t with
      | none =>
        obtain ⟨h1, hempty⟩ := rawPeek_none wf hp
        subst h1
        dsimp only
        rw [restChars_fill, hempty]
        exact ⟨rfl, reader_wf_fill wf⟩
      | some rt =>
        obtain ⟨code, ch, src⟩ := rt
        obtain ⟨h1, hcode, hrest⟩ := rawPeek_some hp
        dsimp only at hcode hrest
        have wf1 : ReaderWf (advanceR s1) := by
          rw [h1]
          exact reader_wf_advance (reader_wf_fill wf)
        have hadv : remChars (advanceR s1) + 1 = remChars s := by
          simp only [remChars, hrest, List.length_cons]
        have hfill1 : restChars s1 = restChars s := by
          rw [h1, restChars_fill]
        have wfs1 : ReaderWf s1 := by
          rw [h1]
          exact reader_wf_fill wf
        dsimp only
        by_cases hc : code = RawCatCode.EndOfLine
        · rw [if_pos hc]
          subst hc
          have heol : isEolChar map ch = true := by
            simp [isEolChar, ← hcode]
          refine ⟨?_, wfs1⟩
          rw [hfill1, hrest, List.dropWhile_cons]
          simp [heol]
        · rw [if_neg hc]
          have heol : isEolChar map ch = false := by
            simp only [isEolChar, ← hcode]
          obtain ⟨ihd, ihw⟩ := ih (advanceR s1) (by omega) wf1
          refine ⟨?_, ihw⟩
          rw [ihd, hrest, List.dropWhile_cons]
          simp [heol]

theorem comment_skip_spec (map : CatMap) (s : RawSt) (wf : ReaderWf s) :
    restChars (comment_skip map s)
        = (restChars s).dropWhile (fun c => !(isEolChar map c))
    ∧ ReaderWf (comment_skip map s) :=
  comment_skipF_spec map (remChars s + 1) s (by omega) wf

/-! ### Lexer: the `Lexer::next` loop -/

theorem lexNextF_stable (map : CatMap) :
    ∀ n m s, remChars s.raw < n → remChars s.raw < m →
      lexNextF map n s = lexNextF map m s := by
  intro n
  induction n with
  | zero => intro m s h1 h2; omega
  | succ n ih =>
    intro m s h1 h2
    cases m with
    | zero => omega
    | succ m =>
      simp only [lexNextF]
      cases hn : rawNext map s.raw with
      | mk s1 t =>
        cases t with
        | none => rfl
        | some rt =>
          obtain ⟨code, ch, src⟩ := rt
          have hrem : remChars s1 + 1 = remChars s.raw := rawNext_some_rem hn
          cases code with
          | Escape => rfl
          | EndOfLine =>
            dsimp only
            have hcw : remChars (consume_whitespace map s1).2 ≤ remChars s1 :=
              consume_whitespace_rem map s1
            rw [ih m ⟨(consume_whitespace map s1).2, s.trim_next_whitespace,
              s.new_par_control_sequence_name⟩ (by dsimp only; omega)
              (by dsimp only; omega)]
          | Regular c =>
            cases c
            case Space =>
              dsimp only
              have hcw : remChars (consume_whitespace map s1).2 ≤ remChars s1 :=
                consume_whitespace_rem map s1
              rw [ih m ⟨(consume_whitespace map s1).2, s.trim_next_whitespace,
                s.new_par_control_sequence_name⟩ (by dsimp only; omega)
                (by dsimp only; omega)]
            all_goals rfl
          | Comment =>
            dsimp only
            have hsk : remChars (comment_skip map s1) ≤ remChars s1 :=
              comment_skip_rem map s1
            rw [ih m ⟨comment_skip map s1, true,
              s.new_par_control_sequence_name⟩ (by dsimp only; omega)
              (by dsimp only; omega)]
          | Ignored =>
            dsimp only
            rw [ih m ⟨s1, s.trim_next_whitespace,
              s.new_par_control_sequence_name⟩ (by dsimp only; omega)
              (by dsimp only; omega)]
          | Invalid => rfl

/-- Unfolding equation for `lexNext`: one iteration of the `Lexer::next`
loop, with the `continue`s expressed as recursive calls of `lexNext`
itself. -/
theorem lexNext_unfold (map : CatMap) (s : LexSt) :
    lexNext map s =
      match rawNext map s.raw with
      | (s1, none) =>
        .ok (none, ⟨s1, s.trim_next_whitespace,
          s.new_par_control_sequence_name⟩)
      | (s1, some rt) =>
        match rt.code with
        | .Escape =>
          match read_control_sequence map rt s1 with
          | .error e => .error e
          | .ok (v, s2) =>
            .ok (some ⟨v, rt.source⟩,
              ⟨s2, true, s.new_par_control_sequence_name⟩)
        | .EndOfLine =>
          if (consume_whitespace map s1).1 + 1 < 2 then
            if s.trim_next_whitespace then
              lexNext map ⟨(consume_whitespace map s1).2,
                s.trim_next_whitespace, s.new_par_control_sequence_name⟩
            else
              .ok (some ⟨.Character rt.char .Space, rt.source⟩,
                ⟨(consume_whitespace map s1).2, false,
                 s.new_par_control_sequence_name⟩)
          else
            .ok (some ⟨.ControlSequence '\\' s.new_par_control_sequence_name,
                  rt.source⟩,
              ⟨(consume_whitespace map s1).2, true,
               s.new_par_control_sequence_name⟩)
        | .Regular .Space =>
          if (consume_whitespace map s1).1 < 2 then
            if s.trim_next_whitespace then
              lexNext map ⟨(consume_whitespace map s1).2,
                s.trim_next_whitespace, s.new_par_control_sequence_name⟩
            else
              .ok (some ⟨.Character rt.char .Space, rt.source⟩,
                ⟨(consume_whitespace map s1).2, false,
                 s.new_par_control_sequence_name⟩)
          else
            .ok (some ⟨.ControlSequence '\\' s.new_par_control_sequence_name,
                  rt.source⟩,
              ⟨(consume_whitespace map s1).2, true,
               s.new_par_control_sequence_name⟩)
        | .Regular c =>
          .ok (some ⟨.Character rt.char c, rt.source⟩,
            ⟨s1, false, s.new_par_control_sequence_name⟩)
        | .Comment =>
          lexNext map ⟨comment_skip map s1, true,
            s.new_par_control_sequence_name⟩
        | .Ignored =>
          lexNext map ⟨s1, s.trim_next_whitespace,
            s.new_par_control_sequence_name⟩
        | .Invalid => .error .InvalidToken := by
  show lexNextF map (remChars s.raw + 1) s = _
  simp only [lexNextF]
  cases hn : rawNext map s.raw with
  | mk s1 t =>
    cases t with
    | none => rfl
    | some rt =>
      obtain ⟨code, ch, src⟩ := rt
      have hrem : remChars s1 + 1 = remChars s.raw := rawNext_some_rem hn
      cases code with
      | Escape => rfl
      | EndOfLine =>
        dsimp only
        have hcw : remChars (consume_whitespace map s1).2 ≤ remChars s1 :=
          consume_whitespace_rem map s1
        rw [lexNextF_stable map (remChars s.raw)
          (remChars (consume_whitespace map s1).2 + 1)
          ⟨(consume_whitespace map s1).2, s.trim_next_whitespace,
           s.new_par_control_sequence_name⟩ (by dsimp only; omega)
          (by dsimp only; omega)]
        rfl
      | Regular c =>
        cases c
        case Space =>
          dsimp only
          have hcw : remChars (consume_whitespace map s1).2 ≤ remChars s1 :=
            consume_whitespace_rem map s1
          rw [lexNextF_stable map (remChars s.raw)
            (remChars (consume_whitespace map s1).2 + 1)
            ⟨(consume_whitespace map s1).2, s.trim_next_whitespace,
             s.new_par_control_sequence_name⟩ (by dsimp only; omega)
            (by dsimp only; omega)]
          rfl
        all_goals rfl
      | Comment =>
        dsimp only
        have hsk : remChars (comment_skip map s1) ≤ remChars s1 :=
          comment_skip_rem map s1
        rw [lexNextF_stable map (remChars s.raw)
          (remChars (comment_skip map s1) + 1)
          ⟨comment_skip map s1, true, s.new_par_control_sequence_name⟩
          (by dsimp only; omega) (by dsimp only; omega)]
        rfl
      | Ignored =>
        dsimp only
        rw [lexNextF_stable map (remChars s.raw) (remChars s1 + 1)
          ⟨s1, s.trim_next_whitespace, s.new_par_control_sequence_name⟩
          (by dsimp only; omega) (by dsimp only; omega)]
        rfl
      | Invalid => rfl

/-! ### Claim C10: end of input is absorbing -/

theorem lexNext_none_state (map : CatMap) :
    ∀ s s2, ReaderWf s.raw → lexNext map s = .ok (none, s2) →
      restChars s2.raw = [] := by
  have main : ∀ bound s s2, remChars s.raw ≤ bound → ReaderWf s.raw →
      lexNext map s = .ok (none, s2) → restChars s2.raw = [] := by
    intro bound
    induction bound with
    | zero =>
      intro s s2 hb wf h
      rw [lexNext_unfold] at h
      cases hn : rawNext map s.raw with
      | mk s1 t =>
        rw [hn] at h
        cases t with
        | none =>
          injection h with h2
          injection h2 with h3 h4
          obtain ⟨-, hempty, -⟩ := rawNext_none wf hn
          rw [← h4]
          exact hempty
        | some rt =>
          have := rawNext_some_rem hn
          have : remChars s.raw = 0 := by omega
          omega
    | succ n ih =>
      intro s s2 hb wf h
      rw [lexNext_unfold] at h
      cases hn : rawNext map s.raw with
      | mk s1 t =>
        rw [hn] at h
        cases t with
        | none =>
          injection h with h2
          injection h2 with h3 h4
          obtain ⟨-, hempty, -⟩ := rawNext_none wf hn
          rw [← h4]
          exact hempty
        | some rt =>
          obtain ⟨code, ch, src⟩ := rt
          have hrem : remChars s1 + 1 = remChars s.raw := rawNext_some_rem hn
          have wf1 : ReaderWf s1 := rawNext_wf wf hn
          cases code with
          | Escape =>
            dsimp only at h
            cases hr : read_control_sequence map
                ⟨RawCatCode.Escape, ch, src⟩ s1 with
            | error e => rw [hr] at h; exact absurd h (by simp)
            | ok p => rw [hr] at h; exact absurd h (by simp)
          | EndOfLine =>
            dsimp only at h
            obtain ⟨-, hd, hw⟩ := consume_whitespace_spec map s1 wf1
            split at h
            · split at h
              · refine ih _ s2 ?_ hw h
                have hle := consume_whitespace_rem map s1
                dsimp only
                omega
              · exact absurd h (by simp)
            · exact absurd h (by simp)
          | Regular c =>
            cases c with
            | Space =>
              dsimp only at h
              obtain ⟨-, hd, hw⟩ := consume_whitespace_spec map s1 wf1
              split at h
              · split at h
                · refine ih _ s2 ?_ hw h
                  have hle := consume_whitespace_rem map s1
                  dsimp only
                  omega
                · exact absurd h (by simp)
              · exact absurd h (by simp)
            | _ => exact absurd h (by simp)
          | Comment =>
            dsimp only at h
            obtain ⟨-, hw⟩ := comment_skip_spec map s1 wf1
            refine ih _ s2 ?_ hw h
            have hle := comment_skip_rem map s1
            dsimp only
            omega
          | Ignored =>
            dsimp only at h
            refine ih _ s2 ?_ wf1 h
            dsimp only
            omega
          | Invalid => exact absurd h (by simp)
  intro s s2 wf h
  exact main (remChars s.raw) s s2 (le_refl _) wf h

theorem lexNext_of_empty (map : CatMap) {s : LexSt} (h : restChars s.raw = []) :
    ∃ s2, lexNext map s = .ok (none, s2) ∧ restChars s2.raw = [] := by
  rw [lexNext_unfold]
  rw [rawNext_of_empty map h]
  refine ⟨_, rfl, ?_⟩
  dsimp only
  refine restChars_advance_of_empty ?_
  rw [restChars_fill]
  exact h

/-- C10: end of input is absorbing.  If `Lexer::next` returns `Ok(None)`
then every subsequent call — with the same or any other category-code
map — also returns `Ok(None)`; no token is ever produced after end of
file.  (`ReaderWf` is the `BufRead` contract: `read_line` yields the empty
string only at end of file.) -/
theorem c10_lexer_eof_absorbing (map : CatMap) (s : LexSt) (s2 : LexSt)
    (wf : ReaderWf s.raw) (h : lexNext map s = .ok (none, s2)) :
    ∀ maps : List CatMap, lexRun maps s2 = maps.map (fun _ => .ok none) := by
  have h0 : restChars s2.raw = [] := lexNext_none_state map s s2 wf h
  clear h wf
  intro maps
  induction maps generalizing s2 with
  | nil => rfl
  | cons m maps ih =>
    obtain ⟨s3, hs3, h3⟩ := lexNext_of_empty m h0
    simp only [lexRun, hs3, List.map_cons]
    exact congrArg _ (ih s3 h3)

/-- C10 witness: the lexer on the empty input returns `Ok(None)` and stays
at `Ok(None)` for two further calls. -/
theorem c10_lexer_eof_absorbing_witness :
    lexRun [tex_defaults, tex_defaults]
        ⟨⟨[], [], 1, 0, []⟩, false, ['p', 'a', 'r']⟩
      = [.ok none, .ok none] := by
  have h := c10_lexer_eof_absorbing tex_defaults (LexSt.new [])
    ⟨⟨[], [], 1, 0, []⟩, false, ['p', 'a', 'r']⟩
    (by intro l hl; simp [RawSt.new, LexSt.new] at hl) (by rfl)
    [tex_defaults, tex_defaults]
  exact h.trans rfl

/-! ### Claims C3 and C4: comments and whitespace collapsing -/

/-- C3 counterexample: on input `A%\n\nB` the code's lexer emits
`A`, `\par`, `B` — the comment does NOT consume the `EndOfLine`, which
therefore still counts toward the two-newline `\par` rule — while a lexer
that discards "through and including the next EndOfLine" (the claim's
wording, `lexAllClaim`) emits `A`, `B`.  The two disagree. -/
theorem c3_comment_counterexample :
    lexAll tex_defaults (LexSt.new (splitLines ("A%\n\nB".toList)))
        = .ok [.Character 'A' .Letter, .ControlSequence '\\' ['p', 'a', 'r'],
               .Character 'B' .Letter]
    ∧ lexAllClaim tex_defaults (LexSt.new (splitLines ("A%\n\nB".toList)))
        = .ok [.Character 'A' .Letter, .Character 'B' .Letter]
    ∧ lexAll tex_defaults (LexSt.new (splitLines ("A%\n\nB".toList)))
        ≠ lexAllClaim tex_defaults (LexSt.new (splitLines ("A%\n\nB".toList))) := by
  have h1 : lexAll tex_defaults (LexSt.new (splitLines ("A%\n\nB".toList)))
      = .ok [.Character 'A' .Letter, .ControlSequence '\\' ['p', 'a', 'r'],
             .Character 'B' .Letter] := by rfl
  have h2 : lexAllClaim tex_defaults (LexSt.new (splitLines ("A%\n\nB".toList)))
      = .ok [.Character 'A' .Letter, .Character 'B' .Letter] := by rfl
  refine ⟨h1, h2, ?_⟩
  rw [h1, h2]
  simp

/-- C3 amended: when `Lexer::next` meets a raw token of category
`Comment`, it discards the following raw tokens UP TO BUT NOT INCLUDING
the next `EndOfLine` (or to end of input), sets `trim_next_whitespace` to
true, and continues tokenizing AT that `EndOfLine` (which is then handled
by the whitespace rule); no token is emitted for the comment itself. -/
theorem c3_comment_handling (map : CatMap) (ls : LexSt) (rt : RawToken)
    (wf : ReaderWf ls.raw)
    (hpk : (rawPeek map ls.raw).2 = some rt)
    (hcomment : rt.code = .Comment) :
    ∃ s2 : RawSt,
      restChars s2
          = ((restChars ls.raw).tail).dropWhile (fun c => !(isEolChar map c))
      ∧ ReaderWf s2
      ∧ lexNext map ls = lexNext map ⟨s2, true, ls.new_par_control_sequence_name⟩ := by
  have hp : rawPeek map ls.raw = ((rawPeek map ls.raw).1, some rt) :=
    Prod.ext rfl hpk
  obtain ⟨-, -, hrest⟩ := rawPeek_some hp
  have hn : rawNext map ls.raw = (advanceR (rawPeek map ls.raw).1, some rt) := by
    unfold rawNext
    rw [hpk]
  have wf1 : ReaderWf (advanceR (rawPeek map ls.raw).1) := rawNext_wf wf hn
  have htail : (restChars ls.raw).tail
      = restChars (advanceR (rawPeek map ls.raw).1) := by
    rw [hrest]
    rfl
  obtain ⟨hdrop, hw⟩ :=
    comment_skip_spec map (advanceR (rawPeek map ls.raw).1) wf1
  refine ⟨comment_skip map (advanceR (rawPeek map ls.raw).1), ?_, hw, ?_⟩
  · rw [hdrop, htail]
  · rw [lexNext_unfold map ls, hn]
    obtain ⟨code, ch, src⟩ := rt
    dsimp only at hcomment
    subst hcomment
    rfl

/-- C4: the whitespace-collapsing subroutine.  Starting from a raw token
of category `Space` or `EndOfLine`, the lexer consumes exactly the maximal
run of following whitespace raw tokens; with `newlines` = the number of
`EndOfLine` tokens among them (plus one if the originating token was
`EndOfLine`): if `newlines ≥ 2` it emits the `\par` control sequence with
escape `\\`; else if `trim_next_whitespace` is set it emits nothing and
continues; else it emits `Character(originating_char, Space)`.  And
concretely (scenario S5), input `A\n\nB` with the default categories lexes
to `Character('A',Letter)`, `ControlSequence(par)`,
`Character('B',Letter)`. -/
theorem c4_whitespace_collapsing :
    (∀ (map : CatMap) (ls : LexSt) (rt : RawToken),
      ReaderWf ls.raw →
      (rawPeek map ls.raw).2 = some rt →
      rt.code = .EndOfLine ∨ rt.code = .Regular .Space →
      ∃ s2 : RawSt,
        restChars s2 = ((restChars ls.raw).tail).dropWhile (isWsChar map)
        ∧ lexNext map ls =
          (if 2 ≤ (((restChars ls.raw).tail).takeWhile (isWsChar map)).countP
                (isEolChar map)
              + (if rt.code = .EndOfLine then 1 else 0) then
            .ok (some ⟨.ControlSequence '\\' ls.new_par_control_sequence_name,
                  rt.source⟩,
              ⟨s2, true, ls.new_par_control_sequence_name⟩)
          else if ls.trim_next_whitespace then
            lexNext map ⟨s2, ls.trim_next_whitespace,
              ls.new_par_control_sequence_name⟩
          else
            .ok (some ⟨.Character rt.char .Space, rt.source⟩,
              ⟨s2, false, ls.new_par_control_sequence_name⟩)))
    ∧ lexAll tex_defaults (LexSt.new (splitLines ("A\n\nB".toList)))
        = .ok [.Character 'A' .Letter, .ControlSequence '\\' ['p', 'a', 'r'],
               .Character 'B' .Letter] := by
  constructor
  · intro map ls rt wf hpk hcode
    have hp : rawPeek map ls.raw = ((rawPeek map ls.raw).1, some rt) :=
      Prod.ext rfl hpk
    obtain ⟨-, -, hrest⟩ := rawPeek_some hp
    have hn : rawNext map ls.raw = (advanceR (rawPeek map ls.raw).1, some rt) := by
      unfold rawNext
      rw [hpk]
    have wf1 : ReaderWf (advanceR (rawPeek map ls.raw).1) := rawNext_wf wf hn
    have htail : (restChars ls.raw).tail
        = restChars (advanceR (rawPeek map ls.raw).1) := by
      rw [hrest]
      rfl
    obtain ⟨hcnt, hdrop, -⟩ :=
      consume_whitespace_spec map (advanceR (rawPeek map ls.raw).1) wf1
    refine ⟨(consume_whitespace map (advanceR (rawPeek map ls.raw).1)).2, ?_, ?_⟩
    · rw [hdrop, htail]
    · rw [lexNext_unfold map ls, hn]
      obtain ⟨code, ch, src⟩ := rt
      rcases hcode with hc | hc
      · dsimp only at hc
        subst hc
        dsimp only
        rw [htail, ← hcnt]
        have e1 : (if (RawCatCode.EndOfLine = RawCatCode.EndOfLine)
            then (1 : Nat) else 0) = 1 := if_pos rfl
        rw [e1]
        by_cases h2 : (consume_whitespace map
            (advanceR (rawPeek map ls.raw).1)).1 + 1 < 2
        · rw [if_pos h2, if_neg (show ¬(2 ≤ (consume_whitespace map
            (advanceR (rawPeek map ls.raw).1)).1 + 1) from by omega)]
        · rw [if_neg h2, if_pos (show 2 ≤ (consume_whitespace map
            (advanceR (rawPeek map ls.raw).1)).1 + 1 from by omega)]
      · dsimp only at hc
        subst hc
        dsimp only
        rw [htail, ← hcnt]
        have e0 : (if (RawCatCode.Regular CatCode.Space = RawCatCode.EndOfLine)
            then (1 : Nat) else 0) = 0 := if_neg (by simp)
        rw [e0]
        by_cases h2 : (consume_whitespace map
            (advanceR (rawPeek map ls.raw).1)).1 < 2
        · rw [if_pos h2, if_neg (show ¬(2 ≤ (consume_whitespace map
            (advanceR (rawPeek map ls.raw).1)).1 + 0) from by omega)]
        · rw [if_neg h2, if_pos (show 2 ≤ (consume_whitespace map
            (advanceR (rawPeek map ls.raw).1)).1 + 0 from by omega)]
  · rfl

/-- C4 witness: the general part instantiated at the concrete state after
reading `A` from input `A B` — the head raw token is the space, the run is
that single space, `newlines = 0`, `trim_next_whitespace` is false, so a
`Character(' ', Space)` token is emitted. -/
theorem c4_whitespace_collapsing_witness :
    ∃ s2 : RawSt,
      restChars s2
          = ((restChars ((⟨[], ['A', ' ', 'B'], 1, 0, []⟩ : RawSt))).tail).dropWhile
              (isWsChar tex_defaults)
      ∧ lexNext tex_defaults ⟨⟨[], ['A', ' ', 'B'], 1, 0, []⟩, false, ['p', 'a', 'r']⟩ =
        (if 2 ≤ (((restChars ((⟨[], ['A', ' ', 'B'], 1, 0, []⟩ : RawSt))).tail).takeWhile
              (isWsChar tex_defaults)).countP (isEolChar tex_defaults)
            + (if (RawToken.mk (.Regular .Space) ' '
                ⟨⟨['A', ' ', 'B'], 0, []⟩, 1⟩).code = .EndOfLine then 1 else 0) then
          .ok (some ⟨.ControlSequence '\\' ['p', 'a', 'r'],
                (RawToken.mk (.Regular .Space) ' ' ⟨⟨['A', ' ', 'B'], 0, []⟩, 1⟩).source⟩,
            ⟨s2, true, ['p', 'a', 'r']⟩)
        else if false then
          lexNext tex_defaults ⟨s2, false, ['p', 'a', 'r']⟩
        else
          .ok (some ⟨.Character ' ' .Space,
                (RawToken.mk (.Regular .Space) ' ' ⟨⟨['A', ' ', 'B'], 0, []⟩, 1⟩).source⟩,
            ⟨s2, false, ['p', 'a', 'r']⟩)) :=
  c4_whitespace_collapsing.1 tex_defaults
    ⟨⟨[], ['A', ' ', 'B'], 1, 0, []⟩, false, ['p', 'a', 'r']⟩
    (RawToken.mk (.Regular .Space) ' ' ⟨⟨['A', ' ', 'B'], 0, []⟩, 1⟩)
    (by intro l hl; simp at hl)
    (by rfl)
    (Or.inr rfl)

/-! ### Claim C7: raw-lexer line numbers -/

/-- C7 counterexample: the very first line's tokens carry line number 0,
not 1 — `RawLexer::new` seeds `line_number: -1` and the first
`fill_buffer` adds one. -/
theorem c7_line_number_counterexample :
    rawLexAll tex_defaults (RawSt.new [['A']]) = [('A', 0)]
    ∧ (('A', (0 : Int))) ≠ ('A', 1) :=
  ⟨by rfl, by decide⟩

theorem rawLexAllF_lines (map : CatMap) :
    ∀ fuel (ls : List (List Char)) (l : List Char) (i : Nat) (num : Int)
      (file : List Char),
      (∀ x ∈ ls, x ≠ ([] : List Char)) →
      remChars ⟨ls, l, i, num, file⟩ < fuel →
      rawLexAllF map fuel ⟨ls, l, i, num, file⟩
        = (l.drop i).map (fun c => (c, num)) ++ linesNumbered (num + 1) ls := by
  intro fuel
  induction fuel with
  | zero => intro ls l i num file hwf h; omega
  | succ n ih =>
    intro ls l i num file hwf hlt
    simp only [rawLexAllF]
    by_cases hi : i < l.length
    · have hfill : fill_buffer ⟨ls, l, i, num, file⟩ = ⟨ls, l, i, num, file⟩ := by
        unfold fill_buffer
        rw [if_neg (by dsimp only; omega)]
      have hn : rawNext map ⟨ls, l, i, num, file⟩
          = (⟨ls, l, i + 1, num, file⟩,
             some ⟨catOf map l[i], l[i], ⟨⟨l, num, file⟩, i⟩⟩) := by
        unfold rawNext rawPeek
        rw [hfill]
        dsimp only
        rw [List.getElem?_eq_getElem hi]
        rfl
      rw [hn]
      dsimp only
      have hrem : remChars ⟨ls, l, i + 1, num, file⟩ + 1
          = remChars ⟨ls, l, i, num, file⟩ := by
        simp [remChars, restChars, List.length_drop]
        omega
      rw [ih ls l (i + 1) num file hwf (by omega)]
      rw [List.drop_eq_getElem_cons hi]
      simp only [List.map_cons, List.cons_append]

    · have hcond : l.length ≤ i := by omega
      cases ls with
      | nil =>
        have hn : rawNext map ⟨[], l, i, num, file⟩
            = (⟨[], [], 1, num + 1, file⟩, none) := by
          unfold rawNext rawPeek fill_buffer
          rw [if_pos (by dsimp only; omega)]
          rfl
        rw [hn]
        simp [List.drop_eq_nil_of_le hcond, linesNumbered]
      | cons a r =>
        obtain ⟨a0, at0, rfl⟩ : ∃ a0 at0, a = a0 :: at0 := by
          cases a with
          | nil => exact absurd rfl (hwf [] (List.mem_cons_self _ _))
          | cons a0 at0 => exact ⟨a0, at0, rfl⟩
        have hfill : fill_buffer ⟨(a0 :: at0) :: r, l, i, num, file⟩
            = ⟨r, a0 :: at0, 0, num + 1, file⟩ := by
          unfold fill_buffer
          rw [if_pos (by dsimp only; omega)]
        have hn : rawNext map ⟨(a0 :: at0) :: r, l, i, num, file⟩
            = (⟨r, a0 :: at0, 1, num + 1, file⟩,
               some ⟨catOf map a0, a0, ⟨⟨a0 :: at0, num + 1, file⟩, 0⟩⟩) := by
          unfold rawNext rawPeek
          rw [hfill]
          simp [advanceR, RawSt.lineRec, catOf]
        rw [hn]
        dsimp only
        have hrem : remChars ⟨r, a0 :: at0, 1, num + 1, file⟩ + 1
            = remChars ⟨(a0 :: at0) :: r, l, i, num, file⟩ := by
          simp [remChars, restChars, List.drop_eq_nil_of_le hcond]
        rw [ih r (a0 :: at0) 1 (num + 1) file
          (fun x hx => hwf x (List.mem_cons_of_mem _ hx)) (by omega)]
        simp [List.drop_eq_nil_of_le hcond, linesNumbered, List.drop_one]

/-- C7 amended: line numbers start at 0, not 1: `RawLexer::new` seeds the
placeholder line with `line_number: -1` and each buffer refill adds one,
so every token from the n-th input line (1-based) carries line number
n − 1. -/
theorem c7_line_numbers_amended (map : CatMap) (lines : List (List Char))
    (hwf : ∀ l ∈ lines, l ≠ ([] : List Char)) :
    rawLexAll map (RawSt.new lines) = linesNumbered 0 lines := by
  have hnew : RawSt.new lines = ⟨lines, [], 0, -1, []⟩ := rfl
  show rawLexAllF map (remChars (RawSt.new lines) + 1) (RawSt.new lines) = _
  rw [hnew, rawLexAllF_lines map _ lines [] 0 (-1) [] hwf (by omega)]
  norm_num

/-- C7 witness: the amended statement at the concrete two-line input
`A\nB`: `A` and the newline carry line number 0, `B` carries 1. -/
theorem c7_line_numbers_amended_witness :
    rawLexAll tex_defaults (RawSt.new [['A', '\n'], ['B']])
      = linesNumbered 0 [['A', '\n'], ['B']] :=
  c7_line_numbers_amended tex_defaults [['A', '\n'], ['B']]
    (by decide)

/-- C3 witness: the amended comment behavior at a concrete state — input
line `A%xB` with the cursor on the `%`: the comment discards `x` and `B`
(no `EndOfLine` follows), sets the trim flag, and continues. -/
theorem c3_comment_handling_witness :
    ∃ s2 : RawSt,
      restChars s2
          = ((restChars ((⟨[], ['A', '%', 'x'], 1, 0, []⟩ : RawSt))).tail).dropWhile
              (fun c => !(isEolChar tex_defaults c))
      ∧ ReaderWf s2
      ∧ lexNext tex_defaults ⟨⟨[], ['A', '%', 'x'], 1, 0, []⟩, false, ['p', 'a', 'r']⟩
          = lexNext tex_defaults ⟨s2, true, ['p', 'a', 'r']⟩ :=
  c3_comment_handling tex_defaults
    ⟨⟨[], ['A', '%', 'x'], 1, 0, []⟩, false, ['p', 'a', 'r']⟩
    (RawToken.mk .Comment '%' ⟨⟨['A', '%', 'x'], 0, []⟩, 1⟩)
    (by intro l hl; simp at hl)
    (by rfl)
    rfl
